import Mathlib

/-!
# Verification of the LSB steganography core (`stego.py`)

Shallow embedding of the password-seeded LSB-matching steganography module:
seed derivation, the linear-congruential PRNG, the local-complexity gate,
the position scheduler, the bit mutator/reader, and the bit/byte codec.

Modelling conventions:
* machine 32-bit arithmetic is `Nat` with explicit `% 2 ^ 32`;
* a pixel buffer is a `List (List Nat)`: pixels in row-major order
  (index `y * width + x`), each pixel a list of channel values; a
  single-channel (scalar) pixel is a one-element list;
* strings are lists of character code points;
* the in-place mutation of the Python buffer becomes explicit state
  passing; the `while` loops, bounded by `max_attempts`, become fuel
  recursion with fuel `max_attempts`;
* the loop states carry ghost instrumentation (the trace of accepted
  positions, the draw counter and the mismatch counter) that records
  what happened without affecting control flow or pixel data.
-/

namespace Stego

/-- `derive_seed_from_password`, accumulator loop: for the character with
code point `ch` at index `i`, XOR `ch <<< (i % 24)` into the accumulator,
masking to 32 bits after every step (`seed &= 0xFFFFFFFF`). -/
def seedAcc : Nat → Nat → List Nat → Nat
  | seed, _, [] => seed
  | seed, i, ch :: rest =>
      seedAcc ((Nat.xor seed (ch <<< (i % 24))) % 2 ^ 32) (i + 1) rest

/-- `derive_seed_from_password` from `stego.py`: fold `seedAcc` over the
password's code points starting from 0; if the result is zero return the
fallback constant `0xDEADBEEF`. -/
def derive_seed_from_password (password : List Nat) : Nat :=
  let seed := seedAcc 0 0 password
  if seed ≠ 0 then seed else 0xDEADBEEF

/-- `SimplePRNG.next_u32`: the LCG step
`state = (1103515245 * state + 12345) & 0xFFFFFFFF`, returning the new
state (the Python method mutates `self.state` and returns it). -/
def next_u32 (state : Nat) : Nat :=
  (1103515245 * state + 12345) % 2 ^ 32

/-- Python's `clamp(v, lo, hi) = max(lo, min(v, hi))` over `Int`
(`width - 2` can be negative for tiny images). -/
def clamp (v lo hi : Int) : Int := max lo (min v hi)

/-- Access `pixels[x, y]`: row-major index `y * width + x`. Out-of-range
access (which would raise in Python) yields the empty pixel. -/
def pixelAt (pixels : List (List Nat)) (width height : Nat) (x y : Int) :
    List Nat :=
  if 0 ≤ x ∧ x < (width : Int) ∧ 0 ≤ y ∧ y < (height : Int) then
    pixels.getD (y.toNat * width + x.toNat) []
  else []

/-- The scalar-pixel normalisation in `compute_local_complexity`: a
scalar channel value `v` (a one-element pixel here) is replicated into
`(v, v, v)`; tuples pass through. -/
def normPixel : List Nat → List Nat
  | [v] => [v, v, v]
  | p => p

/-- Inner loop of `compute_local_complexity`: the sum over the first 3
channels of `abs(int(nb[c]) - int(center[c]))`. -/
def chanDiff (nb center : List Nat) : Nat :=
  (List.range 3).foldl
    (fun acc c => acc + (((nb.getD c 0 : Int)) - ((center.getD c 0 : Int))).natAbs) 0

/-- `compute_local_complexity` from `stego.py`: clamp `(x, y)` into
`[1, dim-2]`, then sum `chanDiff` over the four 4-connected neighbours
of the clamped centre. -/
def compute_local_complexity (pixels : List (List Nat)) (x y width height : Nat) :
    Nat :=
  let cx := clamp x 1 ((width : Int) - 2)
  let cy := clamp y 1 ((height : Int) - 2)
  let center := normPixel (pixelAt pixels width height cx cy)
  [((-1 : Int), (0 : Int)), (1, 0), (0, -1), (0, 1)].foldl
    (fun acc d =>
      acc + chanDiff (normPixel (pixelAt pixels width height (cx + d.1) (cy + d.2)))
        center) 0

/-- `num_channels`: the length of the sample pixel `pixels[0, 0]` (a
scalar pixel is a one-element list, matching Python's `else 1`). -/
def num_channels (pixels : List (List Nat)) : Nat :=
  (pixels.getD 0 []).length

/-- `usable_channels = 3 if num_channels >= 3 else num_channels`. -/
def usable_channels (pixels : List (List Nat)) : Nat :=
  let nc := num_channels pixels
  if nc ≥ 3 then 3 else nc

/-- How an embed/extract call ends: normally, via the eager capacity
guard (`ValueError`), or via budget exhaustion (`RuntimeError`). -/
inductive StegoTag where
  | ok
  | capacityExceeded
  | budgetExhausted
deriving DecidableEq, Repr

/-- Ghost record of one accepted (pixel, channel) position: the linear
position, the complexity value the gate compared at acceptance, the
channel value read, the target/extracted bit, and the value written
back (equal to the value read when nothing was written). -/
structure Accept where
  pos : Nat
  cplx : Nat
  oldv : Nat
  tgt : Nat
  newv : Nat
deriving DecidableEq, Repr

/-- Scheduling context shared by the embed and extract loops. -/
structure Ctx where
  width : Nat
  height : Nat
  usable : Nat
  capacity : Nat
  threshold : Nat
deriving DecidableEq, Repr

/-- State of the embedding loop: the (mutated-in-place) pixel buffer,
the PRNG state, `embedded`, `used_positions` (the Python set, as the
list of accepted positions, newest first) and `attempts`; plus ghost
counters `draws` (total `next_u32` calls), `accepted` (trace of accepted
positions, oldest first) and `mismatches` (accepted positions whose LSB
differed from the target bit). -/
structure EmbedState where
  data : List (List Nat)
  prng : Nat
  embedded : Nat
  used : List Nat
  attempts : Nat
  draws : Nat
  accepted : List Accept
  mismatches : Nat
deriving DecidableEq, Repr

/-- One iteration of the `while` loop of `embed_message_bits`: draw a
position, gate on complexity and on `used_positions`, then embed
`message_bits[embedded]` by LSB matching (`0 → 1`, `255 → 254`,
otherwise a second PRNG draw picks `±1`); an accepted position is added
to `used_positions` and `embedded` is incremented. -/
def embedIter (ctx : Ctx) (bits : List Nat) (st : EmbedState) : EmbedState :=
  let pos_rand := next_u32 st.prng
  let pos := pos_rand % ctx.capacity
  let pixel_index := pos / ctx.usable
  let channel_index := pos % ctx.usable
  let x := pixel_index % ctx.width
  let y := pixel_index / ctx.width
  let cplx := compute_local_complexity st.data x y ctx.width ctx.height
  if cplx < ctx.threshold then
    { st with prng := pos_rand, attempts := st.attempts + 1, draws := st.draws + 1 }
  else if pos ∈ st.used then
    { st with prng := pos_rand, attempts := st.attempts + 1, draws := st.draws + 1 }
  else
    let pix := st.data.getD (y * ctx.width + x) []
    let current := pix.getD channel_index 0
    let target_bit := bits.getD st.embedded 0
    let current_lsb := current % 2
    if current_lsb ≠ target_bit then
      if current = 0 then
        { st with
          data := st.data.set (y * ctx.width + x) (pix.set channel_index 1),
          prng := pos_rand, attempts := st.attempts + 1, draws := st.draws + 1,
          used := pos :: st.used, embedded := st.embedded + 1,
          accepted := st.accepted ++ [⟨pos, cplx, current, target_bit, 1⟩],
          mismatches := st.mismatches + 1 }
      else if current = 255 then
        { st with
          data := st.data.set (y * ctx.width + x) (pix.set channel_index 254),
          prng := pos_rand, attempts := st.attempts + 1, draws := st.draws + 1,
          used := pos :: st.used, embedded := st.embedded + 1,
          accepted := st.accepted ++ [⟨pos, cplx, current, target_bit, 254⟩],
          mismatches := st.mismatches + 1 }
      else
        let dir_rand := next_u32 pos_rand
        let new_value := if dir_rand % 2 = 1 then current + 1 else current - 1
        { st with
          data := st.data.set (y * ctx.width + x) (pix.set channel_index new_value),
          prng := dir_rand, attempts := st.attempts + 1, draws := st.draws + 2,
          used := pos :: st.used, embedded := st.embedded + 1,
          accepted := st.accepted ++ [⟨pos, cplx, current, target_bit, new_value⟩],
          mismatches := st.mismatches + 1 }
    else
      { st with
        prng := pos_rand, attempts := st.attempts + 1, draws := st.draws + 1,
        used := pos :: st.used, embedded := st.embedded + 1,
        accepted := st.accepted ++ [⟨pos, cplx, current, target_bit, current⟩] }

/-- The `while embedded < len(message_bits) and attempts < max_attempts`
loop, with the remaining attempt budget as fuel. -/
def embedLoop (ctx : Ctx) (bits : List Nat) : Nat → EmbedState → EmbedState
  | 0, st => st
  | fuel + 1, st =>
      if st.embedded < bits.length then
        embedLoop ctx bits fuel (embedIter ctx bits st)
      else st

/-- `embed_message_bits` from `stego.py`, with the image I/O stripped:
the pixel buffer stands for the loaded image, and the final state's
`data` field stands for the saved image. Returns how the call ended
together with the final loop state. -/
def embed_message_bits (pixels : List (List Nat)) (width height : Nat)
    (message_bits : List Nat) (password : List Nat)
    (complexity_threshold : Nat) (max_attempt_factor : Nat) :
    StegoTag × EmbedState :=
  let usable := usable_channels pixels
  let total_capacity_bits := width * height * usable
  if message_bits.length > total_capacity_bits then
    (.capacityExceeded, ⟨pixels, 0, 0, [], 0, 0, [], 0⟩)
  else
    let seed := derive_seed_from_password password
    let ctx : Ctx := ⟨width, height, usable, total_capacity_bits, complexity_threshold⟩
    let st := embedLoop ctx message_bits (total_capacity_bits * max_attempt_factor)
      ⟨pixels, seed, 0, [], 0, 0, [], 0⟩
    if st.embedded < message_bits.length then (.budgetExhausted, st) else (.ok, st)

/-- State of the extraction loop: PRNG state, the extracted bits in
order, `used_positions`, `attempts`, and the ghost `draws` counter and
`accepted` trace (the buffer itself is read-only and stays outside the
state). -/
structure ExtractState where
  prng : Nat
  extracted : List Nat
  used : List Nat
  attempts : Nat
  draws : Nat
  accepted : List Accept
deriving DecidableEq, Repr

/-- One iteration of the `while` loop of `extract_message_bits`: the
same draw/gate/deduplicate steps as `embedIter`, then append the
targeted channel's LSB to `extracted`. Nothing is written. -/
def extractIter (ctx : Ctx) (pixels : List (List Nat)) (st : ExtractState) :
    ExtractState :=
  let pos_rand := next_u32 st.prng
  let pos := pos_rand % ctx.capacity
  let pixel_index := pos / ctx.usable
  let channel_index := pos % ctx.usable
  let x := pixel_index % ctx.width
  let y := pixel_index / ctx.width
  let cplx := compute_local_complexity pixels x y ctx.width ctx.height
  if cplx < ctx.threshold then
    { st with prng := pos_rand, attempts := st.attempts + 1, draws := st.draws + 1 }
  else if pos ∈ st.used then
    { st with prng := pos_rand, attempts := st.attempts + 1, draws := st.draws + 1 }
  else
    let pix := pixels.getD (y * ctx.width + x) []
    let bit := (pix.getD channel_index 0) % 2
    { st with
      prng := pos_rand, attempts := st.attempts + 1, draws := st.draws + 1,
      extracted := st.extracted ++ [bit], used := pos :: st.used,
      accepted := st.accepted ++
        [⟨pos, cplx, pix.getD channel_index 0, bit, pix.getD channel_index 0⟩] }

/-- The `while len(extracted) < num_bits and attempts < max_attempts`
loop, with the remaining attempt budget as fuel. -/
def extractLoop (ctx : Ctx) (pixels : List (List Nat)) (num_bits : Nat) :
    Nat → ExtractState → ExtractState
  | 0, st => st
  | fuel + 1, st =>
      if st.extracted.length < num_bits then
        extractLoop ctx pixels num_bits fuel (extractIter ctx pixels st)
      else st

/-- `extract_message_bits` from `stego.py`, with the image I/O stripped.
Returns how the call ended together with the final loop state (whose
`extracted` field is the returned bit list). -/
def extract_message_bits (pixels : List (List Nat)) (width height : Nat)
    (num_bits : Nat) (password : List Nat)
    (complexity_threshold : Nat) (max_attempt_factor : Nat) :
    StegoTag × ExtractState :=
  let usable := usable_channels pixels
  let total_capacity_bits := width * height * usable
  if num_bits > total_capacity_bits then
    (.capacityExceeded, ⟨0, [], [], 0, 0, []⟩)
  else
    let seed := derive_seed_from_password password
    let ctx : Ctx := ⟨width, height, usable, total_capacity_bits, complexity_threshold⟩
    let st := extractLoop ctx pixels num_bits (total_capacity_bits * max_attempt_factor)
      ⟨seed, [], [], 0, 0, []⟩
    if st.extracted.length < num_bits then (.budgetExhausted, st) else (.ok, st)

/-- `bytes_to_bits`: for each byte, append `(b >> i) & 1` for
`i = 7, 6, ..., 0`. -/
def bytes_to_bits (data : List Nat) : List Nat :=
  data.flatMap fun b => (List.range 8).reverse.map fun i => Nat.land (b >>> i) 1

/-- Inner loop of `bits_to_bytes`: `byte = (byte << 1) | (bit & 1)` over
a group of 8 bits. -/
def pack8 (group : List Nat) : Nat :=
  group.foldl (fun byte bit => Nat.lor (byte <<< 1) (Nat.land bit 1)) 0

/-- Outer loop of `bits_to_bytes`: pack each consecutive group of 8 bits
(the padded input's length is a multiple of 8, so the catch-all case is
never reached on padded input). -/
def packChunks : List Nat → List Nat
  | b0 :: b1 :: b2 :: b3 :: b4 :: b5 :: b6 :: b7 :: rest =>
      pack8 [b0, b1, b2, b3, b4, b5, b6, b7] :: packChunks rest
  | _ => []

/-- `bits_to_bytes`: pad on the right with zero bits up to the next
multiple of 8, then pack each group of 8 MSB-first. -/
def bits_to_bytes (bits : List Nat) : List Nat :=
  packChunks (bits ++ List.replicate ((8 - bits.length % 8) % 8) 0)

/-- The 16 message bits of `"hi"`: the UTF-8 bytes `0x68, 0x69`,
MSB-first. -/
def hiBits : List Nat := bytes_to_bits [0x68, 0x69]

/-- Channel `c` of pixel `i` of a buffer (statement helper; out-of-range
reads default to 0, mirroring the total `getD` accesses of the model). -/
def chanVal (d : List (List Nat)) (i c : Nat) : Nat :=
  (d.getD i []).getD c 0

/-- One legal ±1 mutation of a channel, as performed by the bit mutator:
`0` becomes `1`, `255` becomes `254`, anything else moves by exactly one.
`v` is the original value, `w` the mutated one. -/
def MutStep (v w : Nat) : Prop :=
  (v = 0 ∧ w = 1) ∨ (v = 255 ∧ w = 254) ∨
    (0 < v ∧ v < 255 ∧ (w = v + 1 ∨ w = v - 1))

/-- A concrete 3×3 RGB buffer whose channel LSBs at the positions the
password-120 schedule accepts already equal the corresponding bits of
`hiBits`; used as a concrete witness input. -/
def hiWitnessBuf : List (List Nat) :=
  [[1, 0, 0], [1, 1, 0], [0, 0, 0], [0, 1, 0], [0, 1, 0], [0, 0, 0],
   [1, 0, 0], [0, 0, 0], [1, 0, 0]]

/-- A concrete 3×3 uniformly flat RGB buffer (every pixel `[5, 5, 5]`). -/
def flatBuf : List (List Nat) := List.replicate 9 [5, 5, 5]

end Stego

namespace Stego

/-! ## Basic lemmas -/

theorem seedAcc_lt_two_pow_32 :
    ∀ (l : List Nat) (i s : Nat), s < 2 ^ 32 → seedAcc s i l < 2 ^ 32 := by
  intro l
  induction l with
  | nil => intro i s hs; simpa [seedAcc] using hs
  | cons ch rest ih =>
      intro i s hs
      simp only [seedAcc]
      exact ih (i + 1) _ (Nat.mod_lt _ (by norm_num))

/-- C7: `derive_seed_from_password` is the XOR-accumulation of the code
points shifted by `index % 24`, masked to 32 bits at each step, with the
non-zero fallback `0xDEADBEEF` taken exactly when the accumulator ends at
zero; the result is a non-zero 32-bit value, password `"x"` (code point
120) yields 120, and the empty password yields the fallback. -/
theorem C7_seed_derivation (password : List Nat) :
    derive_seed_from_password password =
      (if seedAcc 0 0 password ≠ 0 then seedAcc 0 0 password else 0xDEADBEEF) ∧
    derive_seed_from_password password ≠ 0 ∧
    derive_seed_from_password password < 2 ^ 32 ∧
    derive_seed_from_password [120] = 120 ∧
    derive_seed_from_password [] = 0xDEADBEEF := by
  refine ⟨rfl, ?_, ?_, by decide, by decide⟩
  · unfold derive_seed_from_password
    by_cases h : seedAcc 0 0 password = 0
    · simp [h]
    · simp [h]
  · unfold derive_seed_from_password
    by_cases h : seedAcc 0 0 password = 0
    · simp [h]
    · simpa [h] using seedAcc_lt_two_pow_32 password 0 0 (by norm_num)

/-! ## Bit/byte codec -/

theorem packChunks_nil : packChunks [] = [] := rfl

set_option maxRecDepth 4096 in
theorem pack8_unpack (b : Nat) (hb : b < 256) :
    pack8 ((List.range 8).reverse.map fun i => Nat.land (b >>> i) 1) = b := by
  revert b
  decide

theorem bytes_to_bits_length (d : List Nat) :
    (bytes_to_bits d).length = 8 * d.length := by
  induction d with
  | nil => rfl
  | cons b rest ih =>
      have h1 : bytes_to_bits (b :: rest) =
          ((List.range 8).reverse.map fun i => Nat.land (b >>> i) 1) ++
            bytes_to_bits rest := by
        simp [bytes_to_bits]
      rw [h1, List.length_append, ih, List.length_map, List.length_reverse,
        List.length_range, List.length_cons]
      omega

theorem packChunks_bytes (d : List Nat) (hd : ∀ b ∈ d, b < 256) (rest : List Nat) :
    packChunks (bytes_to_bits d ++ rest) = d ++ packChunks rest := by
  induction d with
  | nil => simp [bytes_to_bits]
  | cons b tail ih =>
      have hb : b < 256 := hd b (by simp)
      have htail : ∀ x ∈ tail, x < 256 := fun x hx => hd x (by simp [hx])
      have hsplit : bytes_to_bits (b :: tail) ++ rest =
          ((List.range 8).reverse.map fun i => Nat.land (b >>> i) 1) ++
            (bytes_to_bits tail ++ rest) := by
        simp [bytes_to_bits]
      rw [hsplit]
      have hrange : (List.range 8).reverse = [7, 6, 5, 4, 3, 2, 1, 0] := by decide
      rw [hrange]
      simp only [List.map, List.cons_append, List.nil_append]
      show pack8 [Nat.land (b >>> 7) 1, Nat.land (b >>> 6) 1, Nat.land (b >>> 5) 1,
        Nat.land (b >>> 4) 1, Nat.land (b >>> 3) 1, Nat.land (b >>> 2) 1,
        Nat.land (b >>> 1) 1, Nat.land (b >>> 0) 1] ::
          packChunks (bytes_to_bits tail ++ rest) = b :: (tail ++ packChunks rest)
      have hpack := pack8_unpack b hb
      rw [hrange] at hpack
      simp only [List.map] at hpack
      rw [hpack, ih htail]

/-- C3: the codec round-trips: `bytes_to_bits` emits the 8 bits of each
byte MSB-first, producing exactly `8 * len(d)` bits, and `bits_to_bytes`
(which right-pads with zeros to a multiple of 8 before packing MSB-first)
recovers the original byte sequence. -/
theorem C3_codec_roundtrip (d : List Nat) (hd : ∀ b ∈ d, b < 256) :
    bits_to_bytes (bytes_to_bits d) = d ∧
    (bytes_to_bits d).length = 8 * d.length := by
  refine ⟨?_, bytes_to_bits_length d⟩
  unfold bits_to_bytes
  have hlen : (bytes_to_bits d).length % 8 = 0 := by
    rw [bytes_to_bits_length]; omega
  rw [hlen]
  norm_num
  have h := packChunks_bytes d hd []
  rw [List.append_nil, packChunks_nil, List.append_nil] at h
  exact h

/-- Witness for C3 at the byte sequence `[0x68, 0x69]` ("hi"). -/
theorem C3_codec_roundtrip_witness :
    bits_to_bytes (bytes_to_bits [0x68, 0x69]) = [0x68, 0x69] ∧
    (bytes_to_bits [0x68, 0x69]).length = 8 * 2 :=
  C3_codec_roundtrip [0x68, 0x69] (by decide)

end Stego

namespace Stego

/-! ## Capacity guard and determinism -/

/-- C2: if the requested bit count exceeds
`Capacity = width * height * usable_channels`, `embed_message_bits`
fails eagerly with `capacityExceeded`: the returned state is the initial
one — buffer pixel-for-pixel unchanged, zero PRNG draws, zero attempts,
no accepted position. (The buffer must be non-empty: Python reads the
sample pixel `pixels[0, 0]` before the guard.) -/
theorem C2_capacity_guard (pixels : List (List Nat)) (width height : Nat)
    (message_bits password : List Nat) (T f : Nat)
    (hne : pixels ≠ [])
    (hover : message_bits.length > width * height * usable_channels pixels) :
    embed_message_bits pixels width height message_bits password T f =
      (.capacityExceeded, ⟨pixels, 0, 0, [], 0, 0, [], 0⟩) := by
  unfold embed_message_bits
  simp [hover]

/-- Witness for C2: a 4-bit message into a 1×1 RGB image (capacity 3). -/
theorem C2_capacity_guard_witness :
    embed_message_bits [[0, 0, 0]] 1 1 [1, 0, 1, 0] [5] 0 4 =
      (.capacityExceeded, ⟨[[0, 0, 0]], 0, 0, [], 0, 0, [], 0⟩) :=
  C2_capacity_guard [[0, 0, 0]] 1 1 [1, 0, 1, 0] [5] 0 4 (by decide) (by decide)

/-- C10: `extract_message_bits` is a pure, deterministic function of its
inputs: equal pixel buffers, dimensions, bit counts, passwords,
thresholds and attempt factors give equal results. -/
theorem C10_extraction_deterministic (p1 p2 : List (List Nat))
    (w1 w2 h1 h2 n1 n2 : Nat) (pw1 pw2 : List Nat) (t1 t2 f1 f2 : Nat)
    (hp : p1 = p2) (hw : w1 = w2) (hh : h1 = h2) (hn : n1 = n2)
    (hpw : pw1 = pw2) (ht : t1 = t2) (hf : f1 = f2) :
    extract_message_bits p1 w1 h1 n1 pw1 t1 f1 =
      extract_message_bits p2 w2 h2 n2 pw2 t2 f2 := by
  subst hp; subst hw; subst hh; subst hn; subst hpw; subst ht; subst hf
  rfl

/-- Witness for C10 at a concrete extraction call. -/
theorem C10_extraction_deterministic_witness :
    extract_message_bits [[1, 2, 3]] 1 1 1 [7] 0 4 =
      extract_message_bits [[1, 2, 3]] 1 1 1 [7] 0 4 :=
  C10_extraction_deterministic [[1, 2, 3]] [[1, 2, 3]] 1 1 1 1 1 1 [7] [7]
    0 0 4 4 rfl rfl rfl rfl rfl rfl rfl

/-! ## Generic loop-invariant lemmas -/

theorem embedLoop_inv (ctx : Ctx) (bits : List Nat) (P : EmbedState → Prop)
    (hstep : ∀ st, P st → P (embedIter ctx bits st)) :
    ∀ fuel st, P st → P (embedLoop ctx bits fuel st) := by
  intro fuel
  induction fuel with
  | zero => intro st h; simpa [embedLoop] using h
  | succ n ih =>
      intro st h
      simp only [embedLoop]
      by_cases hc : st.embedded < bits.length
      · rw [if_pos hc]; exact ih _ (hstep st h)
      · rw [if_neg hc]; exact h

theorem extractLoop_inv (ctx : Ctx) (pixels : List (List Nat)) (num_bits : Nat)
    (P : ExtractState → Prop)
    (hstep : ∀ st, P st → P (extractIter ctx pixels st)) :
    ∀ fuel st, P st → P (extractLoop ctx pixels num_bits fuel st) := by
  intro fuel
  induction fuel with
  | zero => intro st h; simpa [extractLoop] using h
  | succ n ih =>
      intro st h
      simp only [extractLoop]
      by_cases hc : st.extracted.length < num_bits
      · rw [if_pos hc]; exact ih _ (hstep st h)
      · rw [if_neg hc]; exact h

end Stego

namespace Stego

/-! ## Case analysis of one scheduling iteration -/

theorem embedIter_cases (ctx : Ctx) (bits : List Nat) (st : EmbedState) :
    ((embedIter ctx bits st).accepted = st.accepted ∧
     (embedIter ctx bits st).used = st.used ∧
     (embedIter ctx bits st).embedded = st.embedded ∧
     (embedIter ctx bits st).data = st.data) ∨
    (∃ a : Accept,
      (embedIter ctx bits st).accepted = st.accepted ++ [a] ∧
      (embedIter ctx bits st).used = a.pos :: st.used ∧
      (embedIter ctx bits st).embedded = st.embedded + 1 ∧
      ctx.threshold ≤ a.cplx ∧ a.pos ∉ st.used) := by
  simp only [embedIter]
  split_ifs with h1 h2 h3 h4 h5 h6
  · exact Or.inl ⟨rfl, rfl, rfl, rfl⟩
  · exact Or.inl ⟨rfl, rfl, rfl, rfl⟩
  · exact Or.inr ⟨_, rfl, rfl, rfl, Nat.le_of_not_lt h1, h2⟩
  · exact Or.inr ⟨_, rfl, rfl, rfl, Nat.le_of_not_lt h1, h2⟩
  · exact Or.inr ⟨_, rfl, rfl, rfl, Nat.le_of_not_lt h1, h2⟩
  · exact Or.inr ⟨_, rfl, rfl, rfl, Nat.le_of_not_lt h1, h2⟩
  · exact Or.inr ⟨_, rfl, rfl, rfl, Nat.le_of_not_lt h1, h2⟩

theorem extractIter_cases (ctx : Ctx) (pixels : List (List Nat))
    (st : ExtractState) :
    ((extractIter ctx pixels st).accepted = st.accepted ∧
     (extractIter ctx pixels st).used = st.used ∧
     (extractIter ctx pixels st).extracted = st.extracted) ∨
    (∃ a : Accept,
      (extractIter ctx pixels st).accepted = st.accepted ++ [a] ∧
      (extractIter ctx pixels st).used = a.pos :: st.used ∧
      (extractIter ctx pixels st).extracted = st.extracted ++ [a.tgt] ∧
      ctx.threshold ≤ a.cplx ∧ a.pos ∉ st.used ∧
      a.cplx = compute_local_complexity pixels
        (a.pos / ctx.usable % ctx.width) (a.pos / ctx.usable / ctx.width)
        ctx.width ctx.height ∧
      a.oldv = (pixels.getD
          (a.pos / ctx.usable / ctx.width * ctx.width +
            a.pos / ctx.usable % ctx.width) []).getD (a.pos % ctx.usable) 0 ∧
      a.tgt = a.oldv % 2) := by
  simp only [extractIter]
  split_ifs with h1 h2
  · exact Or.inl ⟨rfl, rfl, rfl⟩
  · exact Or.inl ⟨rfl, rfl, rfl⟩
  · exact Or.inr ⟨_, rfl, rfl, rfl, Nat.le_of_not_lt h1, h2, rfl, rfl, rfl⟩

theorem extractIter_counts (ctx : Ctx) (pixels : List (List Nat))
    (st : ExtractState) :
    (extractIter ctx pixels st).attempts = st.attempts + 1 ∧
    (extractIter ctx pixels st).draws = st.draws + 1 := by
  simp only [extractIter]
  split_ifs <;> exact ⟨rfl, rfl⟩

/-! ## C4: complexity gating -/

theorem embed_state_accepted_threshold (ctx : Ctx) (bits : List Nat)
    (fuel : Nat) (st : EmbedState)
    (h : ∀ e ∈ st.accepted, ctx.threshold ≤ e.cplx) :
    ∀ e ∈ (embedLoop ctx bits fuel st).accepted, ctx.threshold ≤ e.cplx := by
  refine embedLoop_inv ctx bits
    (fun s => ∀ e ∈ s.accepted, ctx.threshold ≤ e.cplx) ?_ fuel st h
  intro s hs e he
  rcases embedIter_cases ctx bits s with ⟨ha, _, _, _⟩ | ⟨a, ha, _, _, hth, _⟩
  · exact hs e (ha ▸ he)
  · rw [ha] at he
    rcases List.mem_append.mp he with h' | h'
    · exact hs e h'
    · rwa [List.mem_singleton.mp h']

theorem extract_state_accepted_threshold (ctx : Ctx) (pixels : List (List Nat))
    (num_bits fuel : Nat) (st : ExtractState)
    (h : ∀ e ∈ st.accepted, ctx.threshold ≤ e.cplx ∧
      e.cplx = compute_local_complexity pixels
        (e.pos / ctx.usable % ctx.width) (e.pos / ctx.usable / ctx.width)
        ctx.width ctx.height) :
    ∀ e ∈ (extractLoop ctx pixels num_bits fuel st).accepted,
      ctx.threshold ≤ e.cplx ∧
      e.cplx = compute_local_complexity pixels
        (e.pos / ctx.usable % ctx.width) (e.pos / ctx.usable / ctx.width)
        ctx.width ctx.height := by
  refine extractLoop_inv ctx pixels num_bits
    (fun s => ∀ e ∈ s.accepted, ctx.threshold ≤ e.cplx ∧
      e.cplx = compute_local_complexity pixels
        (e.pos / ctx.usable % ctx.width) (e.pos / ctx.usable / ctx.width)
        ctx.width ctx.height) ?_ fuel st h
  intro s hs e he
  rcases extractIter_cases ctx pixels s with ⟨ha, _, _⟩ | ⟨a, ha, _, _, hth, _, hc, _, _⟩
  · exact hs e (ha ▸ he)
  · rw [ha] at he
    rcases List.mem_append.mp he with h' | h'
    · exact hs e h'
    · rw [List.mem_singleton.mp h']
      exact ⟨hth, hc⟩

/-- C4: every accepted position, on both the embed and the extract path,
passed the complexity gate at the moment of acceptance: the complexity
value the scheduler compared (recorded in the trace, computed against
the buffer state of that moment) is at least the threshold `T`; on the
extract path, where the buffer never changes, that value is exactly
`compute_local_complexity` of the input buffer at the decomposed pixel
coordinate. -/
theorem C4_complexity_gating (pixels : List (List Nat)) (width height : Nat)
    (message_bits password : List Nat) (T f num_bits : Nat) :
    (∀ e ∈ (embed_message_bits pixels width height message_bits password T f).2.accepted,
      T ≤ e.cplx) ∧
    (∀ e ∈ (extract_message_bits pixels width height num_bits password T f).2.accepted,
      T ≤ e.cplx ∧
      e.cplx = compute_local_complexity pixels
        (e.pos / usable_channels pixels % width)
        (e.pos / usable_channels pixels / width) width height) := by
  constructor
  · simp only [embed_message_bits]
    split_ifs with hcap hbud
    · intro e he; simp at he
    · exact embed_state_accepted_threshold _ _ _ _ (by intro e he; simp at he)
    · exact embed_state_accepted_threshold _ _ _ _ (by intro e he; simp at he)
  · simp only [extract_message_bits]
    split_ifs with hcap hbud
    · intro e he; simp at he
    · exact extract_state_accepted_threshold _ _ _ _ _ (by intro e he; simp at he)
    · exact extract_state_accepted_threshold _ _ _ _ _ (by intro e he; simp at he)

/-- Witness for C4: the first accepted entry of a concrete threshold-1
embedding and a concrete extraction both pass the gate. -/
theorem C4_complexity_gating_witness :
    1 ≤ ((embed_message_bits hiWitnessBuf 3 3 [1] [120] 1 4).2.accepted.getD 0
      ⟨0, 0, 0, 0, 0⟩).cplx ∧
    1 ≤ ((extract_message_bits hiWitnessBuf 3 3 1 [120] 1 4).2.accepted.getD 0
      ⟨0, 0, 0, 0, 0⟩).cplx := by
  constructor
  · exact (C4_complexity_gating hiWitnessBuf 3 3 [1] [120] 1 4 1).1 _ (by decide)
  · exact ((C4_complexity_gating hiWitnessBuf 3 3 [1] [120] 1 4 1).2 _ (by decide)).1

end Stego

namespace Stego

/-! ## C6: position uniqueness -/

theorem embed_state_used_nodup (ctx : Ctx) (bits : List Nat) (fuel : Nat)
    (st : EmbedState)
    (h : st.used.Nodup ∧ st.used = (st.accepted.map Accept.pos).reverse) :
    (embedLoop ctx bits fuel st).used.Nodup ∧
    (embedLoop ctx bits fuel st).used =
      ((embedLoop ctx bits fuel st).accepted.map Accept.pos).reverse := by
  refine embedLoop_inv ctx bits
    (fun s => s.used.Nodup ∧ s.used = (s.accepted.map Accept.pos).reverse)
    ?_ fuel st h
  intro s hs
  rcases embedIter_cases ctx bits s with ⟨ha, hu, _, _⟩ | ⟨a, ha, hu, _, _, hnotin⟩
  · rw [ha, hu]; exact hs
  · rw [ha, hu]
    refine ⟨List.nodup_cons.mpr ⟨hnotin, hs.1⟩, ?_⟩
    rw [List.map_append, List.reverse_append]
    simp [hs.2]

theorem extract_state_used_nodup (ctx : Ctx) (pixels : List (List Nat))
    (num_bits fuel : Nat) (st : ExtractState)
    (h : st.used.Nodup ∧ st.used = (st.accepted.map Accept.pos).reverse) :
    (extractLoop ctx pixels num_bits fuel st).used.Nodup ∧
    (extractLoop ctx pixels num_bits fuel st).used =
      ((extractLoop ctx pixels num_bits fuel st).accepted.map Accept.pos).reverse := by
  refine extractLoop_inv ctx pixels num_bits
    (fun s => s.used.Nodup ∧ s.used = (s.accepted.map Accept.pos).reverse)
    ?_ fuel st h
  intro s hs
  rcases extractIter_cases ctx pixels s with ⟨ha, hu, _⟩ | ⟨a, ha, hu, _, _, hnotin, _⟩
  · rw [ha, hu]; exact hs
  · rw [ha, hu]
    refine ⟨List.nodup_cons.mpr ⟨hnotin, hs.1⟩, ?_⟩
    rw [List.map_append, List.reverse_append]
    simp [hs.2]

/-- C6: within one embed call and within one extract call every accepted
position is distinct: the final `used_positions` list (which equals the
reversed trace of accepted positions, so the accepted positions
themselves) has no duplicates. -/
theorem C6_position_uniqueness (pixels : List (List Nat)) (width height : Nat)
    (message_bits password : List Nat) (T f num_bits : Nat) :
    ((embed_message_bits pixels width height message_bits password T f).2.used.Nodup ∧
     (embed_message_bits pixels width height message_bits password T f).2.used =
       (((embed_message_bits pixels width height message_bits password T f).2.accepted.map
         Accept.pos).reverse) ∧
     ((embed_message_bits pixels width height message_bits password T f).2.accepted.map
       Accept.pos).Nodup) ∧
    ((extract_message_bits pixels width height num_bits password T f).2.used.Nodup ∧
     (extract_message_bits pixels width height num_bits password T f).2.used =
       (((extract_message_bits pixels width height num_bits password T f).2.accepted.map
         Accept.pos).reverse) ∧
     ((extract_message_bits pixels width height num_bits password T f).2.accepted.map
       Accept.pos).Nodup) := by
  constructor
  · have key : (embed_message_bits pixels width height message_bits password T f).2.used.Nodup ∧
        (embed_message_bits pixels width height message_bits password T f).2.used =
          (((embed_message_bits pixels width height message_bits password T f).2.accepted.map
            Accept.pos).reverse) := by
      simp only [embed_message_bits]
      split_ifs with hcap hbud
      · exact ⟨List.nodup_nil, rfl⟩
      · exact embed_state_used_nodup _ _ _ _ ⟨List.nodup_nil, rfl⟩
      · exact embed_state_used_nodup _ _ _ _ ⟨List.nodup_nil, rfl⟩
    refine ⟨key.1, key.2, ?_⟩
    have := key.1
    rw [key.2] at this
    exact List.nodup_reverse.mp this
  · have key : (extract_message_bits pixels width height num_bits password T f).2.used.Nodup ∧
        (extract_message_bits pixels width height num_bits password T f).2.used =
          (((extract_message_bits pixels width height num_bits password T f).2.accepted.map
            Accept.pos).reverse) := by
      simp only [extract_message_bits]
      split_ifs with hcap hbud
      · exact ⟨List.nodup_nil, rfl⟩
      · exact extract_state_used_nodup _ _ _ _ _ ⟨List.nodup_nil, rfl⟩
      · exact extract_state_used_nodup _ _ _ _ _ ⟨List.nodup_nil, rfl⟩
    refine ⟨key.1, key.2, ?_⟩
    have := key.1
    rw [key.2] at this
    exact List.nodup_reverse.mp this

end Stego

namespace Stego

/-! ## C8: extraction purity -/

theorem extract_state_pure (ctx : Ctx) (pixels : List (List Nat))
    (num_bits fuel : Nat) (st : ExtractState)
    (h : st.draws = st.attempts ∧
      st.extracted = st.accepted.map Accept.tgt ∧
      ∀ e ∈ st.accepted,
        e.tgt = chanVal pixels (e.pos / ctx.usable) (e.pos % ctx.usable) % 2) :
    (extractLoop ctx pixels num_bits fuel st).draws =
      (extractLoop ctx pixels num_bits fuel st).attempts ∧
    (extractLoop ctx pixels num_bits fuel st).extracted =
      (extractLoop ctx pixels num_bits fuel st).accepted.map Accept.tgt ∧
    ∀ e ∈ (extractLoop ctx pixels num_bits fuel st).accepted,
      e.tgt = chanVal pixels (e.pos / ctx.usable) (e.pos % ctx.usable) % 2 := by
  refine extractLoop_inv ctx pixels num_bits
    (fun s => s.draws = s.attempts ∧
      s.extracted = s.accepted.map Accept.tgt ∧
      ∀ e ∈ s.accepted,
        e.tgt = chanVal pixels (e.pos / ctx.usable) (e.pos % ctx.usable) % 2)
    ?_ fuel st h
  intro s hs
  obtain ⟨hd, he, hm⟩ := hs
  have hc := extractIter_counts ctx pixels s
  rcases extractIter_cases ctx pixels s with
    ⟨ha, _, hx⟩ | ⟨a, ha, _, hx, _, _, _, hold, htgt⟩
  · exact ⟨by rw [hc.2, hc.1, hd], by rw [hx, ha, he], by rw [ha]; exact hm⟩
  · refine ⟨by rw [hc.2, hc.1, hd], ?_, ?_⟩
    · rw [hx, ha, List.map_append, he]
      rfl
    · rw [ha]
      intro e hee
      rcases List.mem_append.mp hee with h' | h'
      · exact hm e h'
      · rw [List.mem_singleton.mp h', htgt, hold]
        have hidx : a.pos / ctx.usable / ctx.width * ctx.width +
            a.pos / ctx.usable % ctx.width = a.pos / ctx.usable := by
          rw [Nat.mul_comm]
          exact Nat.div_add_mod _ _
        rw [hidx]
        rfl

/-- C8: the extract path is pure: the total number of PRNG draws equals
the number of scheduling attempts (exactly one draw per attempt, never
more), and the returned bit list is exactly the least-significant bits
of the *input* buffer's channels at the accepted positions — the loop
state carries no buffer at all, so no channel is ever modified. -/
theorem C8_extraction_purity (pixels : List (List Nat)) (width height : Nat)
    (num_bits : Nat) (password : List Nat) (T f : Nat) :
    (extract_message_bits pixels width height num_bits password T f).2.draws =
      (extract_message_bits pixels width height num_bits password T f).2.attempts ∧
    (extract_message_bits pixels width height num_bits password T f).2.extracted =
      (extract_message_bits pixels width height num_bits password T f).2.accepted.map
        (fun e => chanVal pixels (e.pos / usable_channels pixels)
          (e.pos % usable_channels pixels) % 2) := by
  have main : (extract_message_bits pixels width height num_bits password T f).2.draws =
      (extract_message_bits pixels width height num_bits password T f).2.attempts ∧
      (extract_message_bits pixels width height num_bits password T f).2.extracted =
        (extract_message_bits pixels width height num_bits password T f).2.accepted.map
          Accept.tgt ∧
      ∀ e ∈ (extract_message_bits pixels width height num_bits password T f).2.accepted,
        e.tgt = chanVal pixels (e.pos / usable_channels pixels)
          (e.pos % usable_channels pixels) % 2 := by
    simp only [extract_message_bits]
    split_ifs with hcap hbud
    · exact ⟨rfl, rfl, by intro e he; simp at he⟩
    · exact extract_state_pure _ _ _ _ _ ⟨rfl, rfl, by intro e he; simp at he⟩
    · exact extract_state_pure _ _ _ _ _ ⟨rfl, rfl, by intro e he; simp at he⟩
  refine ⟨main.1, ?_⟩
  rw [main.2.1]
  exact List.map_congr_left main.2.2

end Stego

namespace Stego

/-! ## C5: flat images -/

theorem chanDiff_self (l : List Nat) : chanDiff l l = 0 := by
  have h3 : List.range 3 = [0, 1, 2] := rfl
  simp [chanDiff, h3]

theorem pixelAt_flat (pixels : List (List Nat)) (p : List Nat)
    (width height : Nat) (hlen : pixels.length = width * height)
    (hflat : ∀ q ∈ pixels, q = p) (a b : Int)
    (ha0 : 0 ≤ a) (haw : a < (width : Int)) (hb0 : 0 ≤ b)
    (hbh : b < (height : Int)) :
    pixelAt pixels width height a b = p := by
  unfold pixelAt
  rw [if_pos ⟨ha0, haw, hb0, hbh⟩]
  have ha' : a.toNat < width := by omega
  have hb' : b.toNat < height := by omega
  have hidx : b.toNat * width + a.toNat < pixels.length := by
    rw [hlen, Nat.mul_comm width height]
    calc b.toNat * width + a.toNat < b.toNat * width + width := by omega
    _ = (b.toNat + 1) * width := by ring
    _ ≤ height * width := Nat.mul_le_mul_right width hb'
  rw [List.getD_eq_getElem _ _ hidx]
  exact hflat _ (List.getElem_mem hidx)

theorem compute_local_complexity_flat (pixels : List (List Nat)) (p : List Nat)
    (width height : Nat) (hw : 3 ≤ width) (hh : 3 ≤ height)
    (hlen : pixels.length = width * height) (hflat : ∀ q ∈ pixels, q = p)
    (x y : Nat) :
    compute_local_complexity pixels x y width height = 0 := by
  have hw2 : (1 : Int) ≤ (width : Int) - 2 := by
    have : (3 : Int) ≤ (width : Int) := by exact_mod_cast hw
    omega
  have hh2 : (1 : Int) ≤ (height : Int) - 2 := by
    have : (3 : Int) ≤ (height : Int) := by exact_mod_cast hh
    omega
  have hcx1 : 1 ≤ clamp x 1 ((width : Int) - 2) := le_max_left _ _
  have hcx2 : clamp x 1 ((width : Int) - 2) ≤ (width : Int) - 2 :=
    max_le hw2 (min_le_right _ _)
  have hcy1 : 1 ≤ clamp y 1 ((height : Int) - 2) := le_max_left _ _
  have hcy2 : clamp y 1 ((height : Int) - 2) ≤ (height : Int) - 2 :=
    max_le hh2 (min_le_right _ _)
  have hp : ∀ a b : Int,
      clamp x 1 ((width : Int) - 2) - 1 ≤ a →
      a ≤ clamp x 1 ((width : Int) - 2) + 1 →
      clamp y 1 ((height : Int) - 2) - 1 ≤ b →
      b ≤ clamp y 1 ((height : Int) - 2) + 1 →
      pixelAt pixels width height a b = p := by
    intro a b h1 h2 h3 h4
    exact pixelAt_flat pixels p width height hlen hflat a b
      (by omega) (by omega) (by omega) (by omega)
  simp only [compute_local_complexity, List.foldl]
  rw [hp _ _ (by omega) (by omega) (by omega) (by omega),
    hp _ _ (by omega) (by omega) (by omega) (by omega),
    hp _ _ (by omega) (by omega) (by omega) (by omega),
    hp _ _ (by omega) (by omega) (by omega) (by omega),
    hp _ _ (by omega) (by omega) (by omega) (by omega)]
  simp [chanDiff_self]

end Stego

namespace Stego

theorem embedLoop_all_rejected (ctx : Ctx) (bits : List Nat)
    (pixels : List (List Nat))
    (hzero : ∀ x y, compute_local_complexity pixels x y ctx.width ctx.height = 0)
    (hT : 0 < ctx.threshold) :
    ∀ fuel (st : EmbedState), st.data = pixels → st.embedded < bits.length →
      (embedLoop ctx bits fuel st).data = pixels ∧
      (embedLoop ctx bits fuel st).embedded = st.embedded ∧
      (embedLoop ctx bits fuel st).attempts = st.attempts + fuel ∧
      (embedLoop ctx bits fuel st).draws = st.draws + fuel ∧
      (embedLoop ctx bits fuel st).accepted = st.accepted ∧
      (embedLoop ctx bits fuel st).used = st.used := by
  intro fuel
  induction fuel with
  | zero =>
      intro st hdata _
      simp [embedLoop, hdata]
  | succ n ih =>
      intro st hdata hlt
      have hcond : compute_local_complexity st.data
          (next_u32 st.prng % ctx.capacity / ctx.usable % ctx.width)
          (next_u32 st.prng % ctx.capacity / ctx.usable / ctx.width)
          ctx.width ctx.height < ctx.threshold := by
        rw [hdata, hzero]
        exact hT
      have hiter : embedIter ctx bits st =
          { st with prng := next_u32 st.prng, attempts := st.attempts + 1, draws := st.draws + 1 } := by
        simp only [embedIter]
        rw [if_pos hcond]
      have hstep := ih
        { st with prng := next_u32 st.prng, attempts := st.attempts + 1, draws := st.draws + 1 }
        hdata hlt
      simp only [embedLoop]
      rw [if_pos hlt, hiter]
      refine ⟨hstep.1, hstep.2.1, ?_, ?_, hstep.2.2.2.2.1, hstep.2.2.2.2.2⟩
      · rw [hstep.2.2.1]
        show st.attempts + 1 + n = st.attempts + (n + 1)
        omega
      · rw [hstep.2.2.2.1]
        show st.draws + 1 + n = st.draws + (n + 1)
        omega

/-- C5: on a uniformly flat buffer (every pixel equal to `p`; dimensions
at least 3 so every neighbourhood access is in range) the local
complexity is 0 at every coordinate, and for any threshold `T > 0` and
non-empty message that passes the capacity guard, embedding makes
exactly `Capacity * attemptFactor` attempts (one PRNG draw each),
accepts no position, embeds nothing, and fails with `budgetExhausted`. -/
theorem C5_flat_budget_exhaustion (pixels : List (List Nat)) (p : List Nat)
    (width height : Nat) (bits password : List Nat) (T f : Nat)
    (hw : 3 ≤ width) (hh : 3 ≤ height)
    (hlen : pixels.length = width * height)
    (hflat : ∀ q ∈ pixels, q = p) (hT : 0 < T) (hN : 0 < bits.length)
    (hcap : bits.length ≤ width * height * usable_channels pixels) :
    (∀ x y, compute_local_complexity pixels x y width height = 0) ∧
    (embed_message_bits pixels width height bits password T f).1 =
      .budgetExhausted ∧
    (embed_message_bits pixels width height bits password T f).2.attempts =
      width * height * usable_channels pixels * f ∧
    (embed_message_bits pixels width height bits password T f).2.draws =
      width * height * usable_channels pixels * f ∧
    (embed_message_bits pixels width height bits password T f).2.accepted = [] ∧
    (embed_message_bits pixels width height bits password T f).2.embedded = 0 ∧
    (embed_message_bits pixels width height bits password T f).2.data = pixels := by
  have hzero := compute_local_complexity_flat pixels p width height hw hh hlen hflat
  refine ⟨hzero, ?_⟩
  have hnot : ¬ bits.length > width * height * usable_channels pixels := by omega
  have hloop := embedLoop_all_rejected
    ⟨width, height, usable_channels pixels, width * height * usable_channels pixels, T⟩
    bits pixels hzero hT (width * height * usable_channels pixels * f)
    ⟨pixels, derive_seed_from_password password, 0, [], 0, 0, [], 0⟩ rfl hN
  simp only [embed_message_bits]
  rw [if_neg hnot]
  rw [if_pos (by rw [hloop.2.1]; exact hN)]
  exact ⟨rfl, by rw [hloop.2.2.1]; simp, by rw [hloop.2.2.2.1]; simp,
    hloop.2.2.2.2.1, hloop.2.1, hloop.1⟩

/-- Witness for C5: a flat 3×3 RGB buffer, threshold 1, one message bit:
complexity 0 at the origin, `budgetExhausted` after exactly
`27 * 4 = 108` attempts with no position accepted. -/
theorem C5_flat_budget_exhaustion_witness :
    compute_local_complexity flatBuf 0 0 3 3 = 0 ∧
    (embed_message_bits flatBuf 3 3 [1] [120] 1 4).1 = .budgetExhausted ∧
    (embed_message_bits flatBuf 3 3 [1] [120] 1 4).2.attempts = 108 ∧
    (embed_message_bits flatBuf 3 3 [1] [120] 1 4).2.accepted = [] := by
  have h := C5_flat_budget_exhaustion flatBuf [5, 5, 5] 3 3 [1] [120] 1 4
    (by norm_num) (by norm_num) (by decide) (by decide) (by norm_num)
    (by norm_num) (by decide)
  exact ⟨h.1 0 0, h.2.1, h.2.2.1, h.2.2.2.2.1⟩

end Stego

namespace Stego

/-! ## C9: value-range and ±1 mutation invariant -/

theorem getD_set_self {α : Type} (l : List α) (i : Nat) (a d : α)
    (h : i < l.length) : (l.set i a).getD i d = a := by
  rw [List.getD_eq_getElem?_getD, List.getElem?_set_self',
    List.getElem?_eq_getElem h]
  rfl

theorem getD_set_ne {α : Type} (l : List α) (i j : Nat) (a d : α)
    (h : i ≠ j) : (l.set i a).getD j d = l.getD j d := by
  rw [List.getD_eq_getElem?_getD, List.getElem?_set_ne h,
    ← List.getD_eq_getElem?_getD]

theorem chanVal_write_ne (d : List (List Nat)) (i0 c0 w i c : Nat)
    (h : ¬(i = i0 ∧ c = c0)) :
    chanVal (d.set i0 ((d.getD i0 []).set c0 w)) i c = chanVal d i c := by
  unfold chanVal
  by_cases hi : i = i0
  · subst hi
    have hc : c ≠ c0 := fun hcc => h ⟨rfl, hcc⟩
    by_cases hil : i < d.length
    · rw [getD_set_self d i _ [] hil, getD_set_ne _ c0 c _ 0 (Ne.symm hc)]
    · rw [List.set_eq_of_length_le (by omega)]
  · rw [getD_set_ne d i0 i _ [] (Ne.symm hi)]

theorem chanVal_write_self_or (d : List (List Nat)) (i0 c0 w : Nat) :
    chanVal (d.set i0 ((d.getD i0 []).set c0 w)) i0 c0 = w ∨
    chanVal (d.set i0 ((d.getD i0 []).set c0 w)) i0 c0 = chanVal d i0 c0 := by
  unfold chanVal
  by_cases hil : i0 < d.length
  · rw [getD_set_self d i0 _ [] hil]
    by_cases hcl : c0 < (d.getD i0 []).length
    · left
      rw [getD_set_self _ c0 w 0 hcl]
    · right
      rw [List.set_eq_of_length_le (by omega)]
  · right
    rw [List.set_eq_of_length_le (by omega)]

theorem write_pixlen (d : List (List Nat)) (i0 c0 w i : Nat) :
    ((d.set i0 ((d.getD i0 []).set c0 w)).getD i []).length =
      (d.getD i []).length := by
  by_cases hi : i = i0
  · subst hi
    by_cases hil : i < d.length
    · rw [getD_set_self d i _ [] hil, List.length_set]
    · rw [List.set_eq_of_length_le (by omega)]
  · rw [getD_set_ne d i0 i _ [] (Ne.symm hi)]

theorem pos_decode_inj (u p q : Nat) (h1 : p / u = q / u) (h2 : p % u = q % u) :
    p = q := by
  have hp := Nat.div_add_mod p u
  have hq := Nat.div_add_mod q u
  rw [h1, h2] at hp
  omega

theorem write_preserves (pixels : List (List Nat)) (u : Nat)
    (d : List (List Nat)) (used : List Nat) (pos w : Nat)
    (hA : ∀ i, ((d.getD i []).length = (pixels.getD i []).length))
    (hB : ∀ i c, (¬ ∃ ps ∈ used, ps / u = i ∧ ps % u = c) →
      chanVal d i c = chanVal pixels i c)
    (hC : ∀ i c, chanVal d i c = chanVal pixels i c ∨
      MutStep (chanVal pixels i c) (chanVal d i c))
    (hmut : MutStep (chanVal pixels (pos / u) (pos % u)) w) :
    (∀ i, (((d.set (pos / u) ((d.getD (pos / u) []).set (pos % u) w)).getD i []).length =
      (pixels.getD i []).length)) ∧
    (∀ i c, (¬ ∃ ps ∈ pos :: used, ps / u = i ∧ ps % u = c) →
      chanVal (d.set (pos / u) ((d.getD (pos / u) []).set (pos % u) w)) i c =
        chanVal pixels i c) ∧
    (∀ i c, chanVal (d.set (pos / u) ((d.getD (pos / u) []).set (pos % u) w)) i c =
        chanVal pixels i c ∨
      MutStep (chanVal pixels i c)
        (chanVal (d.set (pos / u) ((d.getD (pos / u) []).set (pos % u) w)) i c)) := by
  refine ⟨?_, ?_, ?_⟩
  · intro i
    rw [write_pixlen]
    exact hA i
  · intro i c hno
    have hne : ¬(i = pos / u ∧ c = pos % u) := by
      rintro ⟨rfl, rfl⟩
      exact hno ⟨pos, List.mem_cons_self _ _, rfl, rfl⟩
    rw [chanVal_write_ne _ _ _ _ _ _ hne]
    refine hB i c ?_
    rintro ⟨ps, hps, hd⟩
    exact hno ⟨ps, List.mem_cons_of_mem _ hps, hd⟩
  · intro i c
    by_cases hic : i = pos / u ∧ c = pos % u
    · obtain ⟨rfl, rfl⟩ := hic
      rcases chanVal_write_self_or d (pos / u) (pos % u) w with h | h
      · rw [h]
        exact Or.inr hmut
      · rw [h]
        exact hC _ _
    · rw [chanVal_write_ne _ _ _ _ _ _ hic]
      exact hC i c

end Stego

namespace Stego

theorem current_eq_orig (pixels : List (List Nat)) (u : Nat)
    (d : List (List Nat)) (used : List Nat) (pos : Nat)
    (hB : ∀ i c, (¬ ∃ ps ∈ used, ps / u = i ∧ ps % u = c) →
      chanVal d i c = chanVal pixels i c)
    (hnotin : pos ∉ used) :
    (d.getD (pos / u) []).getD (pos % u) 0 =
      chanVal pixels (pos / u) (pos % u) := by
  refine hB _ _ ?_
  rintro ⟨ps, hps, hd1, hd2⟩
  rw [pos_decode_inj u ps pos hd1 hd2] at hps
  exact hnotin hps

theorem embedIter_preserves_mut (ctx : Ctx) (bits : List Nat)
    (pixels : List (List Nat))
    (hb : ∀ i c, chanVal pixels i c ≤ 255)
    (st : EmbedState)
    (hA : ∀ i, ((st.data.getD i []).length = (pixels.getD i []).length))
    (hB : ∀ i c, (¬ ∃ ps ∈ st.used, ps / ctx.usable = i ∧ ps % ctx.usable = c) →
      chanVal st.data i c = chanVal pixels i c)
    (hC : ∀ i c, chanVal st.data i c = chanVal pixels i c ∨
      MutStep (chanVal pixels i c) (chanVal st.data i c))
    (hE : ∀ e ∈ st.accepted, e.oldv % 2 = e.tgt → e.newv = e.oldv) :
    (∀ i, (((embedIter ctx bits st).data.getD i []).length =
      (pixels.getD i []).length)) ∧
    (∀ i c, (¬ ∃ ps ∈ (embedIter ctx bits st).used,
        ps / ctx.usable = i ∧ ps % ctx.usable = c) →
      chanVal (embedIter ctx bits st).data i c = chanVal pixels i c) ∧
    (∀ i c, chanVal (embedIter ctx bits st).data i c = chanVal pixels i c ∨
      MutStep (chanVal pixels i c) (chanVal (embedIter ctx bits st).data i c)) ∧
    (∀ e ∈ (embedIter ctx bits st).accepted,
      e.oldv % 2 = e.tgt → e.newv = e.oldv) := by
  have hidx : next_u32 st.prng % ctx.capacity / ctx.usable / ctx.width * ctx.width +
      next_u32 st.prng % ctx.capacity / ctx.usable % ctx.width =
      next_u32 st.prng % ctx.capacity / ctx.usable := by
    rw [Nat.mul_comm]
    exact Nat.div_add_mod _ _
  simp only [embedIter]
  rw [hidx]
  split_ifs with h1 h2 h3 h4 h5 h6
  · exact ⟨hA, hB, hC, hE⟩
  · exact ⟨hA, hB, hC, hE⟩
  · -- mismatch, current value 0: write 1
    have hcur := current_eq_orig pixels ctx.usable st.data st.used
      (next_u32 st.prng % ctx.capacity) hB h2
    have hv : chanVal pixels (next_u32 st.prng % ctx.capacity / ctx.usable)
        (next_u32 st.prng % ctx.capacity % ctx.usable) = 0 := by
      rw [← hcur]; exact h4
    have hw := write_preserves pixels ctx.usable st.data st.used
      (next_u32 st.prng % ctx.capacity) 1 hA hB hC (Or.inl ⟨hv, rfl⟩)
    refine ⟨hw.1, hw.2.1, hw.2.2, ?_⟩
    intro e he
    rcases List.mem_append.mp he with h' | h'
    · exact hE e h'
    · rw [List.mem_singleton.mp h']
      intro hmm
      exact absurd hmm h3
  · -- mismatch, current value 255: write 254
    have hcur := current_eq_orig pixels ctx.usable st.data st.used
      (next_u32 st.prng % ctx.capacity) hB h2
    have hv : chanVal pixels (next_u32 st.prng % ctx.capacity / ctx.usable)
        (next_u32 st.prng % ctx.capacity % ctx.usable) = 255 := by
      rw [← hcur]; exact h5
    have hw := write_preserves pixels ctx.usable st.data st.used
      (next_u32 st.prng % ctx.capacity) 254 hA hB hC (Or.inr (Or.inl ⟨hv, rfl⟩))
    refine ⟨hw.1, hw.2.1, hw.2.2, ?_⟩
    intro e he
    rcases List.mem_append.mp he with h' | h'
    · exact hE e h'
    · rw [List.mem_singleton.mp h']
      intro hmm
      exact absurd hmm h3
  · -- mismatch, interior value, direction draw odd: write current + 1
    have hcur := current_eq_orig pixels ctx.usable st.data st.used
      (next_u32 st.prng % ctx.capacity) hB h2
    have hbd := hb (next_u32 st.prng % ctx.capacity / ctx.usable)
      (next_u32 st.prng % ctx.capacity % ctx.usable)
    have hmut : MutStep (chanVal pixels (next_u32 st.prng % ctx.capacity / ctx.usable)
        (next_u32 st.prng % ctx.capacity % ctx.usable))
        ((st.data.getD (next_u32 st.prng % ctx.capacity / ctx.usable) []).getD
          (next_u32 st.prng % ctx.capacity % ctx.usable) 0 + 1) := by
      unfold MutStep
      omega
    have hw := write_preserves pixels ctx.usable st.data st.used
      (next_u32 st.prng % ctx.capacity)
      ((st.data.getD (next_u32 st.prng % ctx.capacity / ctx.usable) []).getD
        (next_u32 st.prng % ctx.capacity % ctx.usable) 0 + 1) hA hB hC hmut
    refine ⟨hw.1, hw.2.1, hw.2.2, ?_⟩
    intro e he
    rcases List.mem_append.mp he with h' | h'
    · exact hE e h'
    · rw [List.mem_singleton.mp h']
      intro hmm
      exact absurd hmm h3
  · -- mismatch, interior value, direction draw even: write current - 1
    have hcur := current_eq_orig pixels ctx.usable st.data st.used
      (next_u32 st.prng % ctx.capacity) hB h2
    have hbd := hb (next_u32 st.prng % ctx.capacity / ctx.usable)
      (next_u32 st.prng % ctx.capacity % ctx.usable)
    have hmut : MutStep (chanVal pixels (next_u32 st.prng % ctx.capacity / ctx.usable)
        (next_u32 st.prng % ctx.capacity % ctx.usable))
        ((st.data.getD (next_u32 st.prng % ctx.capacity / ctx.usable) []).getD
          (next_u32 st.prng % ctx.capacity % ctx.usable) 0 - 1) := by
      unfold MutStep
      omega
    have hw := write_preserves pixels ctx.usable st.data st.used
      (next_u32 st.prng % ctx.capacity)
      ((st.data.getD (next_u32 st.prng % ctx.capacity / ctx.usable) []).getD
        (next_u32 st.prng % ctx.capacity % ctx.usable) 0 - 1) hA hB hC hmut
    refine ⟨hw.1, hw.2.1, hw.2.2, ?_⟩
    intro e he
    rcases List.mem_append.mp he with h' | h'
    · exact hE e h'
    · rw [List.mem_singleton.mp h']
      intro hmm
      exact absurd hmm h3
  · -- accepted with matching LSB: no write
    refine ⟨hA, ?_, hC, ?_⟩
    · intro i c hno
      refine hB i c ?_
      rintro ⟨ps, hps, hd⟩
      exact hno ⟨ps, List.mem_cons_of_mem _ hps, hd⟩
    · intro e he
      rcases List.mem_append.mp he with h' | h'
      · exact hE e h'
      · rw [List.mem_singleton.mp h']
        intro _
        rfl

end Stego

namespace Stego

theorem embedLoop_preserves_mut (ctx : Ctx) (bits : List Nat)
    (pixels : List (List Nat))
    (hb : ∀ i c, chanVal pixels i c ≤ 255) (fuel : Nat) (st : EmbedState)
    (h : (∀ i, ((st.data.getD i []).length = (pixels.getD i []).length)) ∧
      (∀ i c, (¬ ∃ ps ∈ st.used, ps / ctx.usable = i ∧ ps % ctx.usable = c) →
        chanVal st.data i c = chanVal pixels i c) ∧
      (∀ i c, chanVal st.data i c = chanVal pixels i c ∨
        MutStep (chanVal pixels i c) (chanVal st.data i c)) ∧
      (∀ e ∈ st.accepted, e.oldv % 2 = e.tgt → e.newv = e.oldv)) :
    (∀ i c, chanVal (embedLoop ctx bits fuel st).data i c = chanVal pixels i c ∨
      MutStep (chanVal pixels i c)
        (chanVal (embedLoop ctx bits fuel st).data i c)) ∧
    (∀ e ∈ (embedLoop ctx bits fuel st).accepted,
      e.oldv % 2 = e.tgt → e.newv = e.oldv) := by
  have main := embedLoop_inv ctx bits
    (fun s => (∀ i, ((s.data.getD i []).length = (pixels.getD i []).length)) ∧
      (∀ i c, (¬ ∃ ps ∈ s.used, ps / ctx.usable = i ∧ ps % ctx.usable = c) →
        chanVal s.data i c = chanVal pixels i c) ∧
      (∀ i c, chanVal s.data i c = chanVal pixels i c ∨
        MutStep (chanVal pixels i c) (chanVal s.data i c)) ∧
      (∀ e ∈ s.accepted, e.oldv % 2 = e.tgt → e.newv = e.oldv))
    (fun s hs => embedIter_preserves_mut ctx bits pixels hb s
      hs.1 hs.2.1 hs.2.2.1 hs.2.2.2) fuel st h
  exact ⟨main.2.2.1, main.2.2.2⟩

/-- C9: if every channel of the input buffer lies in `[0, 255]`, then
after embedding every channel still lies in `[0, 255]`, and every
channel is either unchanged or moved by exactly one unit following the
LSB-matching rule (`0 → 1`, `255 → 254`, interior values `±1`);
moreover an accepted position whose channel LSB already equalled the
target bit wrote nothing (its trace entry has `newv = oldv`). -/
theorem C9_value_range_invariant (pixels : List (List Nat))
    (width height : Nat) (message_bits password : List Nat) (T f : Nat)
    (hb : ∀ i c, chanVal pixels i c ≤ 255)
    (hok : (embed_message_bits pixels width height message_bits password T f).1 =
      .ok) :
    (∀ i c,
      chanVal (embed_message_bits pixels width height message_bits password T f).2.data
        i c ≤ 255 ∧
      (chanVal (embed_message_bits pixels width height message_bits password T f).2.data
          i c = chanVal pixels i c ∨
        MutStep (chanVal pixels i c)
          (chanVal (embed_message_bits pixels width height message_bits password T f).2.data
            i c))) ∧
    (∀ e ∈ (embed_message_bits pixels width height message_bits password T f).2.accepted,
      e.oldv % 2 = e.tgt → e.newv = e.oldv) := by
  have key : (∀ i c,
      chanVal (embed_message_bits pixels width height message_bits password T f).2.data
        i c = chanVal pixels i c ∨
      MutStep (chanVal pixels i c)
        (chanVal (embed_message_bits pixels width height message_bits password T f).2.data
          i c)) ∧
      (∀ e ∈ (embed_message_bits pixels width height message_bits password T f).2.accepted,
        e.oldv % 2 = e.tgt → e.newv = e.oldv) := by
    simp only [embed_message_bits]
    split_ifs with hcap hbud
    · exact ⟨fun i c => Or.inl rfl, by intro e he; simp at he⟩
    · exact embedLoop_preserves_mut _ _ pixels hb _ _
        ⟨fun i => rfl, fun i c _ => rfl, fun i c => Or.inl rfl,
          by intro e he; simp at he⟩
    · exact embedLoop_preserves_mut _ _ pixels hb _ _
        ⟨fun i => rfl, fun i c _ => rfl, fun i c => Or.inl rfl,
          by intro e he; simp at he⟩
  refine ⟨fun i c => ⟨?_, key.1 i c⟩, key.2⟩
  rcases key.1 i c with h | h
  · rw [h]; exact hb i c
  · have hv := hb i c
    unfold MutStep at h
    omega

theorem chanVal_le_of_all (d : List (List Nat)) (B : Nat)
    (h : ∀ p ∈ d, ∀ v ∈ p, v ≤ B) (i c : Nat) : chanVal d i c ≤ B := by
  unfold chanVal
  by_cases hi : i < d.length
  · have hmem : d.getD i [] ∈ d := by
      rw [List.getD_eq_getElem _ _ hi]
      exact List.getElem_mem hi
    by_cases hc : c < (d.getD i []).length
    · have hvmem : (d.getD i []).getD c 0 ∈ d.getD i [] := by
        rw [List.getD_eq_getElem _ _ hc]
        exact List.getElem_mem hc
      exact h _ hmem _ hvmem
    · rw [List.getD_eq_default _ _ (by omega)]
      omega
  · rw [List.getD_eq_default d [] (show d.length ≤ i by omega)]
    simp

/-- Witness for C9 at a concrete successful embedding. -/
theorem C9_value_range_invariant_witness :
    chanVal (embed_message_bits hiWitnessBuf 3 3 hiBits [120] 0 4).2.data 0 0 ≤ 255 ∧
    (chanVal (embed_message_bits hiWitnessBuf 3 3 hiBits [120] 0 4).2.data 0 0 =
        chanVal hiWitnessBuf 0 0 ∨
      MutStep (chanVal hiWitnessBuf 0 0)
        (chanVal (embed_message_bits hiWitnessBuf 3 3 hiBits [120] 0 4).2.data 0 0)) :=
  (C9_value_range_invariant hiWitnessBuf 3 3 hiBits [120] 0 4
    (chanVal_le_of_all hiWitnessBuf 255 (by decide)) (by decide)).1 0 0

end Stego

namespace Stego

/-! ## C1: embed/extract lockstep when no direction draw occurs -/

theorem embedIter_mismatches_le (ctx : Ctx) (bits : List Nat) (st : EmbedState) :
    st.mismatches ≤ (embedIter ctx bits st).mismatches := by
  simp only [embedIter]
  split_ifs <;> simp

theorem embedLoop_mismatches_le (ctx : Ctx) (bits : List Nat) :
    ∀ fuel (st : EmbedState),
      st.mismatches ≤ (embedLoop ctx bits fuel st).mismatches := by
  intro fuel
  induction fuel with
  | zero => intro st; simp [embedLoop]
  | succ n ih =>
      intro st
      simp only [embedLoop]
      by_cases hc : st.embedded < bits.length
      · rw [if_pos hc]
        exact le_trans (embedIter_mismatches_le ctx bits st) (ih _)
      · rw [if_neg hc]

theorem embedLoop_embedded_le (ctx : Ctx) (bits : List Nat) :
    ∀ fuel (st : EmbedState), st.embedded ≤ bits.length →
      (embedLoop ctx bits fuel st).embedded ≤ bits.length := by
  intro fuel
  induction fuel with
  | zero => intro st h; simpa [embedLoop] using h
  | succ n ih =>
      intro st h
      simp only [embedLoop]
      by_cases hc : st.embedded < bits.length
      · rw [if_pos hc]
        refine ih _ ?_
        rcases embedIter_cases ctx bits st with ⟨_, _, he, _⟩ | ⟨a, _, _, he, _, _⟩
        · omega
        · omega
      · rw [if_neg hc]; exact h

theorem take_succ_getD (l : List Nat) (n : Nat) (h : n < l.length) :
    l.take (n + 1) = l.take n ++ [l.getD n 0] := by
  rw [List.take_succ, List.getD_eq_getElem _ _ h]
  simp [List.getElem?_eq_getElem h]

theorem iter_sync (ctx : Ctx) (bits : List Nat) (pixels : List (List Nat))
    (stE : EmbedState) (stX : ExtractState)
    (hdata : stE.data = pixels) (hprng : stE.prng = stX.prng)
    (hused : stE.used = stX.used)
    (hext : stX.extracted = bits.take stE.embedded)
    (hlen : stX.extracted.length = stE.embedded)
    (hlt : stE.embedded < bits.length)
    (hnm : (embedIter ctx bits stE).mismatches = stE.mismatches) :
    (embedIter ctx bits stE).data = pixels ∧
    (embedIter ctx bits stE).prng = (extractIter ctx pixels stX).prng ∧
    (embedIter ctx bits stE).used = (extractIter ctx pixels stX).used ∧
    (extractIter ctx pixels stX).extracted =
      bits.take (embedIter ctx bits stE).embedded ∧
    (extractIter ctx pixels stX).extracted.length =
      (embedIter ctx bits stE).embedded := by
  obtain ⟨dE, prE, emE, usE, atE, drE, acE, mmE⟩ := stE
  obtain ⟨prX, exX, usX, atX, drX, acX⟩ := stX
  simp only at hdata hprng hused hext hlen hlt hnm
  subst hdata
  subst hprng
  subst hused
  subst hext
  simp only [embedIter, extractIter] at hnm ⊢
  by_cases h1 : compute_local_complexity dE
      (next_u32 prE % ctx.capacity / ctx.usable % ctx.width)
      (next_u32 prE % ctx.capacity / ctx.usable / ctx.width)
      ctx.width ctx.height < ctx.threshold
  · rw [if_pos h1, if_pos h1]
    exact ⟨rfl, rfl, rfl, rfl, hlen⟩
  · rw [if_neg h1, if_neg h1]
    by_cases h2 : next_u32 prE % ctx.capacity ∈ usE
    · rw [if_pos h2, if_pos h2]
      exact ⟨rfl, rfl, rfl, rfl, hlen⟩
    · rw [if_neg h2, if_neg h2]
      by_cases h3 : (dE.getD
          (next_u32 prE % ctx.capacity / ctx.usable / ctx.width * ctx.width +
            next_u32 prE % ctx.capacity / ctx.usable % ctx.width) []).getD
          (next_u32 prE % ctx.capacity % ctx.usable) 0 % 2 ≠ bits.getD emE 0
      · exfalso
        rw [if_neg h1, if_neg h2, if_pos h3] at hnm
        split_ifs at hnm <;> simp at hnm
      · rw [if_neg h3]
        have hbit : (dE.getD
            (next_u32 prE % ctx.capacity / ctx.usable / ctx.width * ctx.width +
              next_u32 prE % ctx.capacity / ctx.usable % ctx.width) []).getD
            (next_u32 prE % ctx.capacity % ctx.usable) 0 % 2 = bits.getD emE 0 :=
          Decidable.not_not.mp h3
        refine ⟨rfl, rfl, rfl, ?_, ?_⟩
        · rw [take_succ_getD bits emE hlt, hbit]
        · simp only [List.length_append, List.length_cons, List.length_nil]
          omega

theorem loop_lockstep (ctx : Ctx) (bits : List Nat) (pixels : List (List Nat)) :
    ∀ fuel (stE : EmbedState) (stX : ExtractState),
      stE.data = pixels → stE.prng = stX.prng → stE.used = stX.used →
      stX.extracted = bits.take stE.embedded →
      stX.extracted.length = stE.embedded →
      (embedLoop ctx bits fuel stE).mismatches = stE.mismatches →
      (embedLoop ctx bits fuel stE).data = pixels ∧
      (extractLoop ctx pixels bits.length fuel stX).extracted =
        bits.take (embedLoop ctx bits fuel stE).embedded ∧
      (extractLoop ctx pixels bits.length fuel stX).extracted.length =
        (embedLoop ctx bits fuel stE).embedded := by
  intro fuel
  induction fuel with
  | zero =>
      intro stE stX h1 h2 h3 h4 h5 h6
      exact ⟨h1, h4, h5⟩
  | succ n ih =>
      intro stE stX h1 h2 h3 h4 h5 h6
      by_cases hlt : stE.embedded < bits.length
      · have hltX : stX.extracted.length < bits.length := by rw [h5]; exact hlt
        have hEL : embedLoop ctx bits (n + 1) stE =
            embedLoop ctx bits n (embedIter ctx bits stE) := by
          simp only [embedLoop]
          rw [if_pos hlt]
        have hnm1 : (embedIter ctx bits stE).mismatches = stE.mismatches := by
          have hle1 := embedIter_mismatches_le ctx bits stE
          have hle2 := embedLoop_mismatches_le ctx bits n (embedIter ctx bits stE)
          rw [hEL] at h6
          omega
        have hsync := iter_sync ctx bits pixels stE stX h1 h2 h3 h4 h5 hlt hnm1
        have hnm2 : (embedLoop ctx bits n (embedIter ctx bits stE)).mismatches =
            (embedIter ctx bits stE).mismatches := by
          rw [hEL] at h6
          rw [h6, hnm1]
        have hrec := ih (embedIter ctx bits stE) (extractIter ctx pixels stX)
          hsync.1 hsync.2.1 hsync.2.2.1 hsync.2.2.2.1 hsync.2.2.2.2 hnm2
        have hXL : extractLoop ctx pixels bits.length (n + 1) stX =
            extractLoop ctx pixels bits.length n (extractIter ctx pixels stX) := by
          simp only [extractLoop]
          rw [if_pos hltX]
        rw [hEL, hXL]
        exact hrec
      · have hltX : ¬ stX.extracted.length < bits.length := by rw [h5]; exact hlt
        have hEL : embedLoop ctx bits (n + 1) stE = stE := by
          simp only [embedLoop]
          rw [if_neg hlt]
        have hXL : extractLoop ctx pixels bits.length (n + 1) stX = stX := by
          simp only [extractLoop]
          rw [if_neg hltX]
        rw [hEL, hXL]
        exact ⟨h1, h4, h5⟩

end Stego

namespace Stego

/-- C1: embed/extract round-trip for the 16 bits of `"hi"` at threshold
0: for any buffer with `Capacity ≥ 16` and any password, if the
embedding run succeeded and every accepted channel's LSB already matched
its target bit (the trace records zero mismatches, so no ±1 direction
draw — and in fact no write at all — occurred), then the saved buffer
equals the input buffer, and extracting 16 bits from it with the same
password and threshold succeeds and returns exactly the 16 embedded
bits. -/
theorem C1_embed_extract_roundtrip (pixels : List (List Nat))
    (width height : Nat) (password : List Nat)
    (hcap : 16 ≤ width * height * usable_channels pixels)
    (hok : (embed_message_bits pixels width height hiBits password 0 4).1 = .ok)
    (hnm : (embed_message_bits pixels width height hiBits password 0 4).2.mismatches
      = 0) :
    (embed_message_bits pixels width height hiBits password 0 4).2.data = pixels ∧
    extract_message_bits
        (embed_message_bits pixels width height hiBits password 0 4).2.data
        width height 16 password 0 4 =
      extract_message_bits pixels width height 16 password 0 4 ∧
    (extract_message_bits pixels width height 16 password 0 4).1 = .ok ∧
    (extract_message_bits pixels width height 16 password 0 4).2.extracted =
      hiBits := by
  have hlen16 : hiBits.length = 16 := by decide
  have hguard : ¬ (hiBits.length > width * height * usable_channels pixels) := by
    omega
  simp only [embed_message_bits] at hok hnm ⊢
  rw [if_neg hguard] at hok hnm ⊢
  by_cases hlt : (embedLoop
      ⟨width, height, usable_channels pixels,
        width * height * usable_channels pixels, 0⟩ hiBits
      (width * height * usable_channels pixels * 4)
      ⟨pixels, derive_seed_from_password password, 0, [], 0, 0, [], 0⟩).embedded <
      hiBits.length
  · rw [if_pos hlt] at hok
    simp at hok
  · rw [if_neg hlt] at hok hnm ⊢
    have hle := embedLoop_embedded_le
      ⟨width, height, usable_channels pixels,
        width * height * usable_channels pixels, 0⟩ hiBits
      (width * height * usable_channels pixels * 4)
      ⟨pixels, derive_seed_from_password password, 0, [], 0, 0, [], 0⟩
      (by simp)
    have hemb : (embedLoop
        ⟨width, height, usable_channels pixels,
          width * height * usable_channels pixels, 0⟩ hiBits
        (width * height * usable_channels pixels * 4)
        ⟨pixels, derive_seed_from_password password, 0, [], 0, 0, [], 0⟩).embedded =
        16 := by
      rw [hlen16] at hlt hle
      omega
    have hnm0 : (embedLoop
        ⟨width, height, usable_channels pixels,
          width * height * usable_channels pixels, 0⟩ hiBits
        (width * height * usable_channels pixels * 4)
        ⟨pixels, derive_seed_from_password password, 0, [], 0, 0, [], 0⟩).mismatches =
        (⟨pixels, derive_seed_from_password password, 0, [], 0, 0, [], 0⟩ :
          EmbedState).mismatches := hnm
    have hsim := loop_lockstep
      ⟨width, height, usable_channels pixels,
        width * height * usable_channels pixels, 0⟩ hiBits pixels
      (width * height * usable_channels pixels * 4)
      ⟨pixels, derive_seed_from_password password, 0, [], 0, 0, [], 0⟩
      ⟨derive_seed_from_password password, [], [], 0, 0, []⟩
      rfl rfl rfl (by simp) (by simp) hnm0
    rw [hemb] at hsim
    have htake : hiBits.take 16 = hiBits := by decide
    rw [htake, hlen16] at hsim
    have hdata := hsim.1
    have hXbits : (extractLoop
        ⟨width, height, usable_channels pixels,
          width * height * usable_channels pixels, 0⟩ pixels 16
        (width * height * usable_channels pixels * 4)
        ⟨derive_seed_from_password password, [], [], 0, 0, []⟩).extracted =
        hiBits := hsim.2.1
    have hXlen : (extractLoop
        ⟨width, height, usable_channels pixels,
          width * height * usable_channels pixels, 0⟩ pixels 16
        (width * height * usable_channels pixels * 4)
        ⟨derive_seed_from_password password, [], [], 0, 0, []⟩).extracted.length =
        16 := hsim.2.2
    have hX : extract_message_bits pixels width height 16 password 0 4 =
        (.ok, extractLoop
          ⟨width, height, usable_channels pixels,
            width * height * usable_channels pixels, 0⟩ pixels 16
          (width * height * usable_channels pixels * 4)
          ⟨derive_seed_from_password password, [], [], 0, 0, []⟩) := by
      simp only [extract_message_bits]
      rw [if_neg (show ¬ (16 > width * height * usable_channels pixels) by omega)]
      rw [if_neg (show ¬ (extractLoop
          ⟨width, height, usable_channels pixels,
            width * height * usable_channels pixels, 0⟩ pixels 16
          (width * height * usable_channels pixels * 4)
          ⟨derive_seed_from_password password, [], [], 0, 0, []⟩).extracted.length <
          16 by rw [hXlen]; omega)]
    refine ⟨hdata, ?_, ?_, ?_⟩
    · rw [hdata]
    · rw [hX]
    · rw [hX]
      exact hXbits

/-- Witness for C1: the concrete 3×3 buffer whose LSBs already carry the
bits of `"hi"` under the password-120 schedule. -/
theorem C1_embed_extract_roundtrip_witness :
    (embed_message_bits hiWitnessBuf 3 3 hiBits [120] 0 4).2.data = hiWitnessBuf ∧
    (extract_message_bits hiWitnessBuf 3 3 16 [120] 0 4).1 = .ok ∧
    (extract_message_bits hiWitnessBuf 3 3 16 [120] 0 4).2.extracted = hiBits := by
  have h := C1_embed_extract_roundtrip hiWitnessBuf 3 3 [120]
    (by decide) (by decide) (by decide)
  exact ⟨h.1, h.2.2.1, h.2.2.2⟩

end Stego
